import Mathlib

/-!
Verification of the conflict-resolution engine of the auto-requirements-upgrader
repository (source files auto-up-smart-compatibility.py and auto-up.py).

The Python code is shallowly embedded: strings are Lean `String`s (lists of
characters), the Python string primitives actually used by the code
(`strip`, `split`, `join`, `startswith`, `in`, `splitlines`) are modelled as
executable character-list functions, external effects (the pip subprocess, the
version-lookup subprocess, file writes) are passed in as explicit outcome
parameters, and each Python function of the engine becomes a Lean definition
of the same name.
-/

set_option maxHeartbeats 1000000

namespace AutoUp

/-! ## Python string primitives, at the character-list level -/

/-- Whitespace characters removed by Python `str.strip()` (ASCII range; the
manifests handled by the program are ASCII text). -/
def isPySpace (c : Char) : Bool :=
  c == ' ' || c == '\t' || c == '\n' || c == '\r' || c == '\x0b' || c == '\x0c'

/-- Drop trailing whitespace, the right half of Python `str.strip()`. -/
def dropTrailingSpace (l : List Char) : List Char :=
  (l.reverse.dropWhile isPySpace).reverse

/-- Python `str.strip()` with no arguments. -/
def stripList (l : List Char) : List Char :=
  dropTrailingSpace (l.dropWhile isPySpace)

/-- Python `s.strip()` on Lean strings. -/
def pyStrip (s : String) : String :=
  String.mk (stripList s.data)

/-- Python `s.split(sep)` for a single-character separator. -/
def splitOnChar (c : Char) : List Char → List (List Char)
  | [] => [[]]
  | x :: xs =>
    if x = c then
      [] :: splitOnChar c xs
    else
      match splitOnChar c xs with
      | [] => [[x]]
      | h :: t => (x :: h) :: t

/-- Python `s.split(sep)` for a multi-character separator; the fuel argument
is always instantiated with the length of the scanned list, so the
zero-fuel branch is never reached. -/
def splitOnListFuel (sep : List Char) : Nat → List Char → List (List Char)
  | _, [] => [[]]
  | 0, l => [l]
  | fuel + 1, x :: xs =>
    if sep ≠ [] ∧ sep.isPrefixOf (x :: xs) then
      [] :: splitOnListFuel sep fuel (xs.drop (sep.length - 1))
    else
      match splitOnListFuel sep fuel xs with
      | [] => [[x]]
      | h :: t => (x :: h) :: t

/-- Python `s.split(sep)` for a non-empty string separator. -/
def splitOnList (sep l : List Char) : List (List Char) :=
  splitOnListFuel sep l.length l

/-- Python `sep.join(parts)` at the character level, for a one-character
separator. -/
def joinChar (c : Char) : List (List Char) → List Char
  | [] => []
  | [l] => l
  | l :: l2 :: ls => l ++ c :: joinChar c (l2 :: ls)

/-- Python substring containment, `sub in s`. -/
def containsList (sub : List Char) : List Char → Bool
  | [] => sub.isEmpty
  | x :: xs => sub.isPrefixOf (x :: xs) || containsList sub xs

/-- Python `str.splitlines()`, restricted to the newline character (the
only line terminator occurring in the modelled subprocess output). -/
def splitlinesList : List Char → List (List Char)
  | [] => []
  | x :: xs =>
    if x = '\n' then [] :: splitlinesList xs
    else
      match splitlinesList xs with
      | [] => [[x]]
      | h :: t => (x :: h) :: t

/-! ## String-level wrappers used by the embedded program -/

/-- Python `s.split(sep)` on Lean strings. -/
def pySplit (s sep : String) : List String :=
  (splitOnList sep.data s.data).map String.mk

/-- Python `s.split(c)` for a single-character separator, on Lean strings. -/
def pySplitChar (s : String) (c : Char) : List String :=
  (splitOnChar c s.data).map String.mk

/-- Python `"\n".join(lines)` on Lean strings. -/
def pyJoinNL (lines : List String) : String :=
  String.mk (joinChar '\n' (lines.map String.data))

/-- Python `sub in s` on Lean strings. -/
def pyContains (s sub : String) : Bool :=
  containsList sub.data s.data

/-- Python `s.startswith(pre)` on Lean strings. -/
def pyStartsWith (s pre : String) : Bool :=
  pre.data.isPrefixOf s.data

/-- Python `s.split(c)[0]`: the characters of `s` before the first
occurrence of `c`. -/
def splitHead (s : String) (c : Char) : String :=
  String.mk (s.data.takeWhile (fun x => x != c))

/-- A non-empty all-digit string, the reading of "numeric component" used by
the specification. -/
def isNumericString (s : String) : Bool :=
  !s.data.isEmpty && s.data.all Char.isDigit

/-! ## auto-up-smart-compatibility.py: the resolution-oracle adapter

`run_pip_install_test` writes the candidate text to a transient file, invokes
`pip install --dry-run -r <tempfile>` with `timeout=60`, returns
`(returncode == 0, stderr, stdout)`, converts any raised exception
(`except Exception`, which covers `subprocess.TimeoutExpired`) into
`(False, str(e), "")`, and in a `finally` block removes the transient file.
The subprocess invocation is external: its outcome is a parameter. -/

/-- Timeout, in seconds, passed to the resolver invocation (source line 21). -/
def pipInstallTimeout : Nat := 60

/-- Possible outcomes of the external `subprocess.run` invocation: a completed
process with exit code and captured streams, the timeout exception raised after
the requested number of seconds, or some other raised exception. -/
inductive SubprocessOutcome where
  | completed (returncode : Int) (stderr stdout : String)
  | timedOut (message : String)
  | raised (message : String)
deriving DecidableEq

/-- Result of one oracle-adapter call: what is returned to the caller
(`Except.error` would mean an exception propagated out of the function), and
whether the transient temp file was removed before exiting. -/
structure PipTestResult where
  outcome : Except String (Bool × String × String)
  tempFileRemoved : Bool

/-- Whether the adapter returned normally rather than propagating an
exception. -/
def returnedNormally : Except String (Bool × String × String) → Bool
  | .ok _ => true
  | .error _ => false

/-- Shallow embedding of `run_pip_install_test` (source lines 9-28).  `call`
is the external subprocess invocation, taking the candidate manifest text and
the timeout.  The `timedOut` and `raised` arms embed the `except Exception`
clause; `tempFileRemoved := true` on every arm embeds the `finally` clause. -/
def run_pip_install_test (call : String → Nat → SubprocessOutcome)
    (requirements_content : String) : PipTestResult :=
  match call requirements_content pipInstallTimeout with
  | .completed rc stderr stdout => ⟨.ok (rc == 0, stderr, stdout), true⟩
  | .timedOut msg => ⟨.ok (false, msg, ""), true⟩
  | .raised msg => ⟨.ok (false, msg, ""), true⟩

/-! ## auto-up-smart-compatibility.py: the conflict-fix rewriter -/

/-- The known conflict-fix table (source lines 37-42), in source order;
Python dict iteration follows insertion order. -/
def conflict_fixes : List (String × String) :=
  [("numpy==2.3.1", "numpy>=2.0.0,<2.3.0"),
   ("numpy==2.3.0", "numpy>=2.0.0,<2.3.0"),
   ("pillow>=11.3.0", "pillow>=10.0.0"),
   ("scipy>=1.16.0", "scipy>=1.11.0")]

/-- The replacement texts of the rule table. -/
def ruleOutputs : List String := conflict_fixes.map (fun r => r.2)

/-- The per-rule test of the pattern-match loop (source line 58):
`line.startswith(pattern.split('=')[0] + '==') or
line.startswith(pattern.split('>')[0])`. -/
def patternTest (pattern line : String) : Bool :=
  pyStartsWith line (splitHead pattern '=' ++ "==") ||
  pyStartsWith line (splitHead pattern '>')

/-- The `for pattern, replacement in conflict_fixes.items()` loop with
`break` (source lines 57-61): the first rule whose `patternTest` fires. -/
def patternLoop (line : String) : List (String × String) → Option String
  | [] => none
  | (pattern, replacement) :: rest =>
    if patternTest pattern line then some replacement
    else patternLoop line rest

/-- Exact-match lookup, `line in conflict_fixes` followed by
`conflict_fixes[line]` (source lines 51-52). -/
def exactLookup (line : String) : List (String × String) → Option String
  | [] => none
  | (key, value) :: rest =>
    if key == line then some value else exactLookup line rest

/-- Body of the per-line loop of `fix_dependency_conflicts` (source lines
44-64): strip the line, pass blank and comment lines through, try an exact
match, then the pattern loop, else keep the line. -/
def fixLine (line0 : String) : String :=
  let line := pyStrip line0
  if line == "" || pyStartsWith line "#" then line
  else
    match exactLookup line conflict_fixes with
    | some replacement => replacement
    | none =>
      match patternLoop line conflict_fixes with
      | some replacement => replacement
      | none => line

/-- `fix_dependency_conflicts` (source lines 31-66):
`requirements_content.strip().split('\n')`, the per-line loop, then
`'\n'.join(fixed_lines)`. -/
def fix_dependency_conflicts (requirements_content : String) : String :=
  pyJoinNL ((pySplitChar (pyStrip requirements_content) '\n').map fixLine)

/-! ## auto-up-smart-compatibility.py: the flexibilization rewriter -/

/-- Body of the per-line loop of `make_requirements_flexible` (source lines
74-97).  `parts.headD`/`parts.getD` embed Python's `line.split('==')[0]` and
`line.split('==')[1]`; the index-1 access is guarded by `'==' in line`, which
guarantees the split has at least two parts, so the defaults are never used. -/
def flexLine (line0 : String) : String :=
  let line := pyStrip line0
  if line == "" || pyStartsWith line "#" then line
  else if pyContains line "==" then
    let parts := pySplit line "=="
    let package_name := parts.headD ""
    let version := parts.getD 1 ""
    let version_parts := pySplit version "."
    if 2 ≤ version_parts.length then
      package_name ++ ">=" ++ version_parts.getD 0 "" ++ "." ++
        version_parts.getD 1 "" ++ ".0"
    else
      package_name ++ ">=" ++ version
  else line

/-- `make_requirements_flexible` (source lines 69-99). -/
def make_requirements_flexible (requirements_content : String) : String :=
  pyJoinNL ((pySplitChar (pyStrip requirements_content) '\n').map flexLine)

/-! ## auto-up-smart-compatibility.py: the strategy ladder -/

/-- One observable step of the ladder: an invocation of the conflict-fix
rewriter, of the flexibilization rewriter, or of the oracle on a candidate
manifest text. -/
inductive LadderEvent where
  | fixCall
  | flexCall
  | oracleCall (candidate : String)
deriving DecidableEq

/-- Whether an event is an oracle invocation. -/
def isOracleEvent : LadderEvent → Bool
  | .oracleCall _ => true
  | _ => false

/-- An invocation of `fix_dependency_conflicts`, with its event. -/
def fixTraced (s : String) : List LadderEvent × String :=
  ([.fixCall], fix_dependency_conflicts s)

/-- An invocation of `make_requirements_flexible`, with its event. -/
def flexTraced (s : String) : List LadderEvent × String :=
  ([.flexCall], make_requirements_flexible s)

/-- Construction of the `strategies` list literal (source lines 104-109),
with the rewriter invocations it performs, in Python evaluation order:
the fourth element evaluates `fix_dependency_conflicts(original_content)`
a second time before flexibilizing it. -/
def strategiesTraced (original_content : String) :
    List LadderEvent × List (String × String) :=
  let f1 := fixTraced original_content
  let x1 := flexTraced original_content
  let f2 := fixTraced original_content
  let x2 := flexTraced f2.2
  (f1.1 ++ x1.1 ++ f2.1 ++ x2.1,
   [("Original", original_content),
    ("Fixed conflicts", f1.2),
    ("Flexible versions", x1.2),
    ("Flexible + Fixed", x2.2)])

/-- The `strategies` list (source lines 104-109), without instrumentation. -/
def strategies (original_content : String) : List (String × String) :=
  [("Original", original_content),
   ("Fixed conflicts", fix_dependency_conflicts original_content),
   ("Flexible versions", make_requirements_flexible original_content),
   ("Flexible + Fixed",
    make_requirements_flexible (fix_dependency_conflicts original_content))]

/-- The `for strategy_name, content in strategies` loop (source lines
113-130): call the oracle on each candidate, stop at the first success,
return `(None, "All strategies failed")` if every candidate fails.  The
oracle is the `(success, stderr, stdout)` triple returned by
`run_pip_install_test`; only the success flag steers the control flow (the
diagnostic text is only printed).  The first component collects the oracle
invocations performed. -/
def ladderLoop (oracle : String → Bool × String × String) :
    List (String × String) → List LadderEvent × (Option String × String)
  | [] => ([], (none, "All strategies failed"))
  | (strategy_name, content) :: rest =>
    let r := oracle content
    if r.1 then ([.oracleCall content], (some content, strategy_name))
    else
      let later := ladderLoop oracle rest
      (.oracleCall content :: later.1, later.2)

/-- Instrumented `progressive_fix_requirements` (source lines 102-130):
the events performed (rewriter invocations while building the strategies
list, then oracle invocations), and the returned pair. -/
def progressive_fix_requirements_trace
    (oracle : String → Bool × String × String) (original_content : String) :
    List LadderEvent × (Option String × String) :=
  let built := strategiesTraced original_content
  let looped := ladderLoop oracle built.2
  (built.1 ++ looped.1, looped.2)

/-- `progressive_fix_requirements` (source lines 102-130): the returned
`(content, strategy_name)` pair, `(None, "All strategies failed")` on total
failure. -/
def progressive_fix_requirements
    (oracle : String → Bool × String × String) (original_content : String) :
    Option String × String :=
  (ladderLoop oracle (strategies original_content)).2

/-! ## auto-up-smart-compatibility.py: the top-level fix flow -/

/-- Observable outcome of one run of `upgrade_requirements_smart_v2`
(source lines 133-194): whether the original content already resolved (the
early-return branch), the content written to the `-compatible` output file
if any write happened, and whether the terminal failure report was shown. -/
structure SmartRunResult where
  alreadyCompatible : Bool
  wroteOutput : Option String
  reportedFailure : Bool
deriving DecidableEq

/-- Shallow embedding of `upgrade_requirements_smart_v2` (source lines
133-194).  The file read is the `original_content` parameter; the oracle is
the `run_pip_install_test` result triple.  `if fixed_content:` is Python
truthiness: both `None` and the empty string take the failure branch. -/
def upgrade_requirements_smart_v2
    (oracle : String → Bool × String × String) (original_content : String) :
    SmartRunResult :=
  let first := oracle original_content
  if first.1 then ⟨true, none, false⟩
  else
    let res := progressive_fix_requirements oracle original_content
    match res.1 with
    | some fixed_content =>
      if fixed_content == "" then ⟨false, none, true⟩
      else ⟨false, some fixed_content, false⟩
    | none => ⟨false, none, true⟩

/-! ## auto-up.py: the version-upgrade pass -/

/-- Outcome of the external `pip index versions <package>` invocation:
captured stdout of a completed process, or a raised exception. -/
inductive LookupOutcome where
  | completed (stdout : String)
  | raised (message : String)
deriving DecidableEq

/-- `get_latest_version` (auto-up.py lines 6-20), with the external
invocation outcome passed in: scan `result.stdout.splitlines()` for the
first line containing `"Available versions:"`, take the text after the last
occurrence, strip it, split on `", "`, and return the first entry; return
`None` when no line matches or the invocation raised. -/
def get_latest_version (outcome : LookupOutcome) : Option String :=
  match outcome with
  | .raised _ => none
  | .completed stdout =>
    match (splitlinesList stdout.data).find?
        (fun line => containsList "Available versions:".data line) with
    | none => none
    | some line =>
      some (String.mk ((splitOnList ", ".data
        (stripList ((splitOnList "Available versions:".data line).getLastD []))).headD []))

/-- Characters matched by the package-name class `[a-zA-Z0-9\-_]` of the
requirement regex (auto-up.py line 33). -/
def isPackageChar (c : Char) : Bool :=
  ('a' ≤ c && c ≤ 'z') || ('A' ≤ c && c ≤ 'Z') ||
  ('0' ≤ c && c ≤ '9') || c == '-' || c == '_'

/-- `re.match(r"([a-zA-Z0-9\-_]+)(==([^\s]+))?", line)` reduced to what the
code uses: `group(1)`, the maximal leading run of package characters, or no
match when the line does not start with one. -/
def matchPackage (line : String) : Option String :=
  match line.data with
  | [] => none
  | c :: _ =>
    if isPackageChar c then some (String.mk (line.data.takeWhile isPackageChar))
    else none

/-- Body of the per-line upgrade loop (auto-up.py lines 27-45).  `lookup`
maps a package name to the outcome of its external version query.
`if latest_version:` is Python truthiness: the empty string counts as no
version. -/
def upgradeLine (lookup : String → LookupOutcome) (line : String) : String :=
  let original_line := pyStrip line
  if original_line == "" || pyStartsWith original_line "#" then original_line
  else
    match matchPackage original_line with
    | none => original_line
    | some package =>
      match get_latest_version (lookup package) with
      | some latest_version =>
        if latest_version == "" then original_line
        else package ++ "==" ++ latest_version
      | none => original_line

/-- The `for line in file` loop of `upgrade_requirements_file` (auto-up.py
lines 27-45), appending one upgraded line per input line. -/
def upgradeLoop (lookup : String → LookupOutcome) : List String → List String
  | [] => []
  | line :: rest => upgradeLine lookup line :: upgradeLoop lookup rest

/-- `upgrade_requirements_file` (auto-up.py lines 22-48) on the ordered list
of raw input lines: the per-line loop followed by
`"\n".join(upgraded_lines)`, which is the content written to the
`-upgraded` output file. -/
def upgrade_requirements_file (lookup : String → LookupOutcome)
    (lines : List String) : String :=
  pyJoinNL (upgradeLoop lookup lines)

/-! ## Definitions taken from the specification text -/

/-- Manifest parsing as performed by the per-line pipelines of the source
(auto-up-smart-compatibility.py lines 33 and 44-45, auto-up.py lines 27-28):
strip the text, split it on newlines, strip each line. -/
def parseManifest (text : String) : List String :=
  (pySplitChar (pyStrip text) '\n').map pyStrip

/-- Manifest serialization: join the ordered lines by newline (source
lines 66 and 99 of auto-up-smart-compatibility.py, line 48 of auto-up.py). -/
def serializeManifest (lines : List String) : String :=
  pyJoinNL lines

/-- Modelled from the claim wording for the conflict-fix contract: a rule
key's prefix is "the substring before the first `=` or `>`". -/
def ruleKeyPrefixSpec (key : String) : String :=
  String.mk (key.data.takeWhile (fun c => !(c == '=' || c == '>')))

/-- Modelled from the claim wording: the prefix-match step compares each
rule's `ruleKeyPrefixSpec` against the line's prefix, first match wins. -/
def patternLoopSpec (line : String) : List (String × String) → Option String
  | [] => none
  | (key, replacement) :: rest =>
    if pyStartsWith line (ruleKeyPrefixSpec key) then some replacement
    else patternLoopSpec line rest

/-- Modelled from the claim wording for the conflict-fix contract: exact
match first, then the `ruleKeyPrefixSpec` prefix match, else unchanged. -/
def fixLineSpec (line0 : String) : String :=
  let line := pyStrip line0
  if line == "" || pyStartsWith line "#" then line
  else
    match exactLookup line conflict_fixes with
    | some replacement => replacement
    | none =>
      match patternLoopSpec line conflict_fixes with
      | some replacement => replacement
      | none => line

/-! ## Concrete oracles used by counterexamples and witnesses -/

/-- An oracle that reports success on every candidate. -/
def alwaysYesOracle : String → Bool × String × String := fun _ => (true, "", "")

/-- An oracle that reports failure on every candidate. -/
def alwaysNoOracle : String → Bool × String × String := fun _ => (false, "", "")

/-- An oracle that succeeds exactly on the flexibilized candidate used in the
witnesses. -/
def flexOnlyOracle : String → Bool × String × String :=
  fun s => (s == "flask>=1.0.0", "", "")

/-! ## Bridging lemmas between `String` and its character list -/

theorem data_mk (l : List Char) : (String.mk l).data = l := rfl

theorem mk_data (s : String) : String.mk s.data = s := rfl

theorem string_eq_of_data {s t : String} (h : s.data = t.data) : s = t := by
  cases s
  cases t
  exact congrArg String.mk h

theorem map_data_map_mk (L : List (List Char)) :
    (L.map String.mk).map String.data = L := by
  rw [List.map_map]
  exact List.map_id L

/-! ## Lemmas about `splitOnChar` and `joinChar` -/

theorem splitOnChar_ne_nil (c : Char) (l : List Char) : splitOnChar c l ≠ [] := by
  induction l with
  | nil => simp [splitOnChar]
  | cons x xs ih =>
    by_cases hx : x = c
    · simp [splitOnChar, hx]
    · simp only [splitOnChar, if_neg hx]
      cases h : splitOnChar c xs with
      | nil => simp
      | cons a t => simp

theorem joinChar_splitOnChar (c : Char) (l : List Char) :
    joinChar c (splitOnChar c l) = l := by
  induction l with
  | nil => rfl
  | cons x xs ih =>
    by_cases hx : x = c
    · subst hx
      simp only [splitOnChar, if_pos rfl]
      cases h : splitOnChar x xs with
      | nil => exact absurd h (splitOnChar_ne_nil x xs)
      | cons a t =>
        rw [h] at ih
        simpa [joinChar] using ih
    · simp only [splitOnChar, if_neg hx]
      cases h : splitOnChar c xs with
      | nil => exact absurd h (splitOnChar_ne_nil c xs)
      | cons a t =>
        rw [h] at ih
        cases t with
        | nil => simpa [joinChar] using ih
        | cons b t2 => simpa [joinChar] using ih

theorem not_mem_of_mem_splitOnChar {c : Char} {l p : List Char}
    (hp : p ∈ splitOnChar c l) : c ∉ p := by
  induction l generalizing p with
  | nil =>
    simp [splitOnChar] at hp
    simp [hp]
  | cons x xs ih =>
    by_cases hx : x = c
    · rw [splitOnChar, if_pos hx] at hp
      rcases List.mem_cons.1 hp with h | h
      · simp [h]
      · exact ih h
    · rw [splitOnChar, if_neg hx] at hp
      cases h : splitOnChar c xs with
      | nil => exact absurd h (splitOnChar_ne_nil c xs)
      | cons a t =>
        rw [h] at hp
        rcases List.mem_cons.1 hp with h2 | h2
        · subst h2
          intro hmem
          rcases List.mem_cons.1 hmem with h3 | h3
          · exact hx h3.symm
          · exact ih (h ▸ List.mem_cons_self a t) h3
        · exact ih (h ▸ List.mem_cons_of_mem a h2)

theorem splitOnChar_of_not_mem {c : Char} {l : List Char} (h : c ∉ l) :
    splitOnChar c l = [l] := by
  induction l with
  | nil => rfl
  | cons x xs ih =>
    have hx : x ≠ c := fun he => h (he ▸ List.mem_cons_self x xs)
    have hxs : c ∉ xs := fun hm => h (List.mem_cons_of_mem x hm)
    rw [splitOnChar, if_neg hx, ih hxs]

theorem splitOnChar_append_cons (c : Char) {A : List Char} (B : List Char)
    (h : c ∉ A) : splitOnChar c (A ++ c :: B) = A :: splitOnChar c B := by
  induction A with
  | nil => simp [splitOnChar]
  | cons x xs ih =>
    have hx : x ≠ c := fun he => h (he ▸ List.mem_cons_self x xs)
    have hxs : c ∉ xs := fun hm => h (List.mem_cons_of_mem x hm)
    rw [List.cons_append, splitOnChar, if_neg hx, ih hxs]

theorem splitOnChar_joinChar (c : Char) (ls : List (List Char))
    (hne : ls ≠ []) (h : ∀ p ∈ ls, c ∉ p) :
    splitOnChar c (joinChar c ls) = ls := by
  induction ls with
  | nil => exact absurd rfl hne
  | cons l rest ih =>
    cases rest with
    | nil =>
      rw [joinChar]
      exact splitOnChar_of_not_mem (h l (List.mem_cons_self l []))
    | cons l2 rest2 =>
      rw [joinChar, splitOnChar_append_cons c _ (h l (List.mem_cons_self l _))]
      rw [ih (by simp) (fun p hp => h p (List.mem_cons_of_mem l hp))]

theorem headD_splitOnChar (c : Char) (l : List Char) :
    (splitOnChar c l).headD [] = l.takeWhile (fun x => x != c) := by
  induction l with
  | nil => rfl
  | cons x xs ih =>
    by_cases hx : x = c
    · subst hx
      simp [splitOnChar, List.takeWhile_cons]
    · rw [splitOnChar, if_neg hx]
      cases h : splitOnChar c xs with
      | nil => exact absurd h (splitOnChar_ne_nil c xs)
      | cons a t =>
        rw [h] at ih
        simp only [List.headD_cons] at ih
        simp [List.takeWhile_cons, hx, ← ih]

/-! ## takeWhile and dropWhile helpers -/

theorem takeWhile_append_last_neg {p : Char → Bool} {a : Char}
    (A : List Char) (ha : p a = false) :
    (A ++ [a]).takeWhile p = A.takeWhile p := by
  induction A with
  | nil => simp [List.takeWhile_cons, ha]
  | cons x xs ih =>
    by_cases hx : p x = true
    · simp [List.takeWhile_cons, hx, ih]
    · simp [List.takeWhile_cons, Bool.eq_false_iff.2 hx]

theorem takeWhile_append_of_all {p : Char → Bool} {A : List Char}
    (B : List Char) (hA : ∀ x ∈ A, p x = true) :
    (A ++ B).takeWhile p = A ++ B.takeWhile p := by
  induction A with
  | nil => rfl
  | cons x xs ih =>
    have hx := hA x (List.mem_cons_self x xs)
    simp [List.takeWhile_cons, hx, ih (fun y hy => hA y (List.mem_cons_of_mem x hy))]

theorem takeWhile_append_of_mem_neg {p : Char → Bool} {a : Char} {A : List Char}
    (B : List Char) (hmem : a ∈ A) (ha : p a = false) :
    (A ++ B).takeWhile p = A.takeWhile p := by
  induction A with
  | nil => exact absurd hmem (List.not_mem_nil a)
  | cons x xs ih =>
    by_cases hx : p x = true
    · have hax : a ≠ x := fun he => by rw [he, hx] at ha; cases ha
      have : a ∈ xs := by
        rcases List.mem_cons.1 hmem with h | h
        · exact absurd h hax
        · exact h
      simp [List.takeWhile_cons, hx, ih this]
    · simp [List.takeWhile_cons, Bool.eq_false_iff.2 hx]

theorem dropWhile_append_last {p : Char → Bool} {a : Char}
    (A : List Char) (ha : p a = false) :
    ∃ C, (A ++ [a]).dropWhile p = C ++ [a] := by
  induction A with
  | nil => exact ⟨[], by simp [List.dropWhile_cons, ha]⟩
  | cons x xs ih =>
    by_cases hx : p x = true
    · rcases ih with ⟨C, hC⟩
      exact ⟨C, by simp [List.dropWhile_cons, hx, hC]⟩
    · exact ⟨x :: xs, by simp [List.dropWhile_cons, Bool.eq_false_iff.2 hx]⟩

theorem headD_dropWhile {p : Char → Bool} {l : List Char} (d : Char)
    (h : l.dropWhile p ≠ []) : p ((l.dropWhile p).headD d) = false := by
  induction l with
  | nil => exact absurd rfl h
  | cons x xs ih =>
    by_cases hx : p x = true
    · rw [List.dropWhile_cons, if_pos hx] at h ⊢
      exact ih h
    · rw [List.dropWhile_cons, if_neg hx]
      simpa using Bool.eq_false_iff.2 hx

theorem dropWhile_eq_nil_all {p : Char → Bool} {l : List Char}
    (h : l.dropWhile p = []) : ∀ x ∈ l, p x = true := by
  induction l with
  | nil => simp
  | cons x xs ih =>
    by_cases hx : p x = true
    · rw [List.dropWhile_cons, if_pos hx] at h
      intro y hy
      rcases List.mem_cons.1 hy with h2 | h2
      · exact h2 ▸ hx
      · exact ih h y h2
    · rw [List.dropWhile_cons, if_neg hx] at h
      cases h

theorem splitOnChar_eq_singleton {c : Char} {l a : List Char}
    (h : splitOnChar c l = [a]) : a = l ∧ c ∉ l := by
  induction l generalizing a with
  | nil =>
    refine ⟨?_, List.not_mem_nil c⟩
    have : ([[]] : List (List Char)) = [a] := h
    simpa using this.symm
  | cons x xs ih =>
    by_cases hx : x = c
    · rw [splitOnChar, if_pos hx] at h
      injection h with h1 h2
      exact absurd h2 (splitOnChar_ne_nil c xs)
    · rw [splitOnChar, if_neg hx] at h
      cases hsp : splitOnChar c xs with
      | nil => exact absurd hsp (splitOnChar_ne_nil c xs)
      | cons b t =>
        rw [hsp] at h
        injection h with h1 h2
        rw [h2] at hsp
        rcases ih hsp with ⟨hb, hc⟩
        constructor
        · rw [← h1, hb]
        · intro hmem
          rcases List.mem_cons.1 hmem with h3 | h3
          · exact hx h3.symm
          · exact hc h3

theorem mem_of_splitOnChar_two {c : Char} {l : List Char} {a b : List Char}
    {t : List (List Char)} (h : splitOnChar c l = a :: b :: t) : c ∈ l := by
  by_cases hc : c ∈ l
  · exact hc
  · rw [splitOnChar_of_not_mem hc] at h
    injection h with h1 h2
    exact absurd h2.symm (List.cons_ne_nil b t)

theorem getLastD_splitOnChar (c : Char) (l : List Char) :
    (splitOnChar c l).getLastD [] =
      (l.reverse.takeWhile (fun x => x != c)).reverse := by
  induction l with
  | nil => rfl
  | cons x xs ih =>
    by_cases hx : x = c
    · subst hx
      rw [splitOnChar, if_pos rfl]
      cases h : splitOnChar x xs with
      | nil => exact absurd h (splitOnChar_ne_nil x xs)
      | cons a t =>
        rw [h] at ih
        have he : ([] :: a :: t).getLastD ([] : List Char) = (a :: t).getLastD [] := rfl
        rw [he, ih, List.reverse_cons,
          takeWhile_append_last_neg xs.reverse (by simp)]
    · rw [splitOnChar, if_neg hx]
      cases h : splitOnChar c xs with
      | nil => exact absurd h (splitOnChar_ne_nil c xs)
      | cons a t =>
        rw [h] at ih
        cases t with
        | nil =>
          rcases splitOnChar_eq_singleton h with ⟨ha, hc⟩
          subst ha
          have hall : ∀ y ∈ a.reverse, (fun x => x != c) y = true := by
            intro y hy
            have hy2 : y ∈ a := List.mem_reverse.1 hy
            have : y ≠ c := fun he => hc (he ▸ hy2)
            simpa using this
          have hgl : (((x :: a) :: []).getLastD ([] : List Char)) = x :: a := rfl
          rw [hgl, List.reverse_cons, takeWhile_append_of_all [x] hall]
          have hpx : (fun y => y != c) x = true := by simpa using hx
          simp [List.takeWhile_cons, hpx]
        | cons b t2 =>
          have hmem : c ∈ xs := mem_of_splitOnChar_two h
          have hgl : (((x :: a) :: b :: t2).getLastD ([] : List Char)) =
              ((a :: b :: t2).getLastD ([] : List Char)) := rfl
          rw [hgl, ih, List.reverse_cons,
            takeWhile_append_of_mem_neg [x] (List.mem_reverse.2 hmem) (by simp)]

/-! ## Lemmas about `stripList` -/

theorem mem_of_mem_dropWhile {p : Char → Bool} {l : List Char} {x : Char}
    (h : x ∈ l.dropWhile p) : x ∈ l := by
  rw [← List.takeWhile_append_dropWhile p l]
  exact List.mem_append_right _ h

theorem mem_of_mem_stripList {l : List Char} {x : Char}
    (h : x ∈ stripList l) : x ∈ l := by
  unfold stripList dropTrailingSpace at h
  have h1 : x ∈ (l.dropWhile isPySpace).reverse.dropWhile isPySpace :=
    List.mem_reverse.1 h
  have h2 : x ∈ (l.dropWhile isPySpace).reverse := mem_of_mem_dropWhile h1
  exact mem_of_mem_dropWhile (List.mem_reverse.1 h2)

theorem dropTrailingSpace_prefix (l : List Char) :
    ∃ T, l = dropTrailingSpace l ++ T := by
  unfold dropTrailingSpace
  refine ⟨(l.reverse.takeWhile isPySpace).reverse, ?_⟩
  have hsplit : l.reverse.takeWhile isPySpace ++ l.reverse.dropWhile isPySpace = l.reverse :=
    List.takeWhile_append_dropWhile isPySpace l.reverse
  calc l = l.reverse.reverse := (List.reverse_reverse l).symm
  _ = (l.reverse.takeWhile isPySpace ++ l.reverse.dropWhile isPySpace).reverse := by rw [hsplit]
  _ = (l.reverse.dropWhile isPySpace).reverse ++ (l.reverse.takeWhile isPySpace).reverse := by
      rw [List.reverse_append]

theorem headD_append_left {A : List Char} (B : List Char) (d : Char)
    (h : A ≠ []) : (A ++ B).headD d = A.headD d := by
  cases A with
  | nil => exact absurd rfl h
  | cons x xs => rfl

theorem stripList_head {l : List Char} (hne : l ≠ [])
    (h : isPySpace (l.headD '.') = false) :
    stripList l ≠ [] ∧ (stripList l).headD '.' = l.headD '.' := by
  cases l with
  | nil => exact absurd rfl hne
  | cons x xs =>
    simp only [List.headD_cons] at h
    have hdw : (x :: xs).dropWhile isPySpace = x :: xs := by
      rw [List.dropWhile_cons, if_neg (by simp [h])]
    have hrev : (x :: xs).reverse = xs.reverse ++ [x] := by
      rw [List.reverse_cons]
    have hstrip : stripList (x :: xs) = dropTrailingSpace (x :: xs) := by
      unfold stripList
      rw [hdw]
    rcases dropWhile_append_last (p := isPySpace) xs.reverse h with ⟨C, hC⟩
    have : dropTrailingSpace (x :: xs) = x :: C.reverse := by
      unfold dropTrailingSpace
      rw [hrev, hC, List.reverse_append]
      rfl
    rw [hstrip, this]
    exact ⟨List.cons_ne_nil x C.reverse, rfl⟩

theorem stripList_last {l : List Char} (hne : l ≠ [])
    (h : isPySpace (l.reverse.headD '.') = false) :
    stripList l ≠ [] ∧
      (stripList l).reverse.headD '.' = l.reverse.headD '.' := by
  have hD : l.dropWhile isPySpace ≠ [] := by
    intro hnil
    have hall := dropWhile_eq_nil_all hnil
    have hlast : l.reverse.headD '.' ∈ l := by
      cases hrl : l.reverse with
      | nil =>
        exact absurd (by simpa using congrArg List.reverse hrl) hne
      | cons y ys =>
        have hy : y ∈ l := List.mem_reverse.1 (hrl ▸ List.mem_cons_self y ys)
        simpa using hy
    rw [hall _ hlast] at h
    cases h
  have hsplit : l.takeWhile isPySpace ++ l.dropWhile isPySpace = l :=
    List.takeWhile_append_dropWhile isPySpace l
  have hrevD : l.reverse.headD '.' = (l.dropWhile isPySpace).reverse.headD '.' := by
    conv_lhs => rw [← hsplit]
    rw [List.reverse_append]
    exact headD_append_left _ '.' (by simpa using hD)
  have hDrev : (l.dropWhile isPySpace).reverse ≠ [] := by simpa using hD
  have hy0 : isPySpace ((l.dropWhile isPySpace).reverse.headD '.') = false := by
    rw [← hrevD]
    exact h
  have hdw2 : (l.dropWhile isPySpace).reverse.dropWhile isPySpace =
      (l.dropWhile isPySpace).reverse := by
    cases hDr : (l.dropWhile isPySpace).reverse with
    | nil => exact absurd hDr hDrev
    | cons y ys =>
      have hy : isPySpace y = false := by
        rw [hDr] at hy0
        simpa using hy0
      rw [List.dropWhile_cons, if_neg (by simp [hy])]
  have hstrip : stripList l = l.dropWhile isPySpace := by
    unfold stripList dropTrailingSpace
    rw [hdw2, List.reverse_reverse]
  rw [hstrip, ← hrevD]
  exact ⟨hD, rfl⟩

theorem stripList_eq_self {l : List Char}
    (h1 : isPySpace (l.headD '.') = false)
    (h2 : isPySpace (l.reverse.headD '.') = false) : stripList l = l := by
  cases l with
  | nil => rfl
  | cons x xs =>
    simp only [List.headD_cons] at h1
    have hdw : (x :: xs).dropWhile isPySpace = x :: xs := by
      rw [List.dropWhile_cons, if_neg (by simp [h1])]
    have hrevne : (x :: xs).reverse ≠ [] := by simp
    have hdw2 : (x :: xs).reverse.dropWhile isPySpace = (x :: xs).reverse := by
      cases hr : (x :: xs).reverse with
      | nil => exact absurd hr hrevne
      | cons y ys =>
        have hy : isPySpace y = false := by
          rw [hr] at h2
          simpa using h2
        rw [List.dropWhile_cons, if_neg (by simp [hy])]
    unfold stripList dropTrailingSpace
    rw [hdw, hdw2, List.reverse_reverse]

theorem stripList_clean (l : List Char) :
    stripList l = [] ∨
      (isPySpace ((stripList l).headD '.') = false ∧
       isPySpace ((stripList l).reverse.headD '.') = false) := by
  by_cases hnil : stripList l = []
  · exact Or.inl hnil
  · right
    have hDT : stripList l = dropTrailingSpace (l.dropWhile isPySpace) := rfl
    have hDne : l.dropWhile isPySpace ≠ [] := by
      intro h0
      rw [hDT, h0] at hnil
      exact hnil rfl
    constructor
    · -- head: the result is a prefix of dropWhile, whose head is not whitespace
      rcases dropTrailingSpace_prefix (l.dropWhile isPySpace) with ⟨T, hT⟩
      have hhead : isPySpace ((l.dropWhile isPySpace).headD '.') = false :=
        headD_dropWhile '.' hDne
      have heq : (l.dropWhile isPySpace).headD '.' = (stripList l).headD '.' := by
        conv_lhs => rw [hT]
        rw [hDT]
        exact headD_append_left T '.' (by rw [← hDT]; exact hnil)
      rw [← heq]
      exact hhead
    · -- last: the reverse of the result is a dropWhile, whose head is clean
      have hrev : (stripList l).reverse =
          (l.dropWhile isPySpace).reverse.dropWhile isPySpace := by
        rw [hDT]
        unfold dropTrailingSpace
        rw [List.reverse_reverse]
      rw [hrev]
      apply headD_dropWhile
      rw [← hrev]
      simpa using hnil

theorem stripList_idem (l : List Char) : stripList (stripList l) = stripList l := by
  rcases stripList_clean l with h | ⟨h1, h2⟩
  · rw [h]
    rfl
  · exact stripList_eq_self h1 h2

theorem pyStrip_idem (s : String) : pyStrip (pyStrip s) = pyStrip s := by
  unfold pyStrip
  rw [data_mk, stripList_idem]

/-! ## Head and last of `joinChar` -/

theorem joinChar_ne_nil_two (c : Char) (l l2 : List Char) (ls : List (List Char)) :
    joinChar c (l :: l2 :: ls) ≠ [] := by
  rw [joinChar]
  cases l with
  | nil => simp
  | cons x xs => simp

theorem headD_joinChar (c : Char) (out : List (List Char))
    (hne : out ≠ []) (hh : out.headD [] ≠ []) :
    (joinChar c out).headD '.' = (out.headD []).headD '.' := by
  cases out with
  | nil => exact absurd rfl hne
  | cons l rest =>
    cases rest with
    | nil => rfl
    | cons l2 ls =>
      rw [joinChar]
      simp only [List.headD_cons] at hh ⊢
      exact headD_append_left _ '.' hh

theorem getLastD_out_cons (l : List Char) (l2 : List Char) (ls : List (List Char)) :
    ((l :: l2 :: ls).getLastD ([] : List Char)) = ((l2 :: ls).getLastD []) := rfl

theorem lastD_joinChar (c : Char) (out : List (List Char))
    (hne : out ≠ []) (hl : out.getLastD [] ≠ []) :
    (joinChar c out).reverse.headD '.' = (out.getLastD []).reverse.headD '.' := by
  induction out with
  | nil => exact absurd rfl hne
  | cons l rest ih =>
    cases rest with
    | nil => rfl
    | cons l2 ls =>
      rw [joinChar, getLastD_out_cons] at *
      have hl2 : (l2 :: ls).getLastD [] ≠ [] := hl
      have hjne : joinChar c (l2 :: ls) ≠ [] := by
        cases ls with
        | nil => simpa [joinChar] using hl2
        | cons l3 ls2 => exact joinChar_ne_nil_two c l2 l3 ls2
      have hrev : (l ++ c :: joinChar c (l2 :: ls)).reverse =
          (joinChar c (l2 :: ls)).reverse ++ c :: l.reverse := by
        rw [List.reverse_append, List.reverse_cons, List.append_assoc]
        simp
      rw [hrev, headD_append_left _ '.' (by simpa using hjne)]
      exact ih (by simp) hl2

/-! ## Map helpers -/

theorem headD_map {α β : Type} (f : α → β) (L : List α) (d : β)
    (s : α) (hne : L ≠ []) : (L.map f).headD d = f (L.headD s) := by
  cases L with
  | nil => exact absurd rfl hne
  | cons x xs => rfl

theorem getLastD_map {α β : Type} (f : α → β) (L : List α) (d : β)
    (s : α) (hne : L ≠ []) : (L.map f).getLastD d = f (L.getLastD s) := by
  induction L generalizing d s with
  | nil => exact absurd rfl hne
  | cons x xs ih =>
    cases xs with
    | nil => rfl
    | cons y ys =>
      have h1 : ((x :: y :: ys).map f).getLastD d = ((y :: ys).map f).getLastD (f x) := rfl
      have h2 : ((x :: y :: ys).getLastD s) = ((y :: ys).getLastD x) := rfl
      rw [h1, h2]
      exact ih (f x) x (by simp)

theorem headD_mem {α : Type} (L : List α) (d : α) (hne : L ≠ []) :
    L.headD d ∈ L := by
  cases L with
  | nil => exact absurd rfl hne
  | cons x xs => exact List.mem_cons_self x xs

theorem getD_default_or_mem {α : Type} (L : List α) (i : Nat) (d : α) :
    L.getD i d = d ∨ L.getD i d ∈ L := by
  induction L generalizing i with
  | nil => exact Or.inl rfl
  | cons x xs ih =>
    cases i with
    | zero => exact Or.inr (List.mem_cons_self x xs)
    | succ j =>
      rcases ih j with h | h
      · exact Or.inl h
      · exact Or.inr (List.mem_cons_of_mem x h)

theorem map_strip_id {ls : List String} (h : ∀ l ∈ ls, pyStrip l = l) :
    ls.map pyStrip = ls := by
  induction ls with
  | nil => rfl
  | cons x xs ih =>
    rw [List.map_cons, h x (List.mem_cons_self x xs),
      ih (fun y hy => h y (List.mem_cons_of_mem x hy))]

/-! ## Lemmas about `splitOnList` -/

theorem mem_of_mem_splitOnListFuel {sep : List Char} (fuel : Nat) :
    ∀ (l p : List Char) (x : Char), p ∈ splitOnListFuel sep fuel l → x ∈ p → x ∈ l := by
  induction fuel with
  | zero =>
    intro l p x hp hx
    cases l with
    | nil =>
      simp [splitOnListFuel] at hp
      rw [hp] at hx
      cases hx
    | cons y ys =>
      simp [splitOnListFuel] at hp
      rw [hp] at hx
      exact hx
  | succ fuel ih =>
    intro l p x hp hx
    cases l with
    | nil =>
      simp [splitOnListFuel] at hp
      rw [hp] at hx
      cases hx
    | cons y ys =>
      rw [splitOnListFuel] at hp
      by_cases hc : sep ≠ [] ∧ sep.isPrefixOf (y :: ys)
      · rw [if_pos hc] at hp
        rcases List.mem_cons.1 hp with h | h
        · rw [h] at hx
          cases hx
        · have := ih _ p x h hx
          exact List.mem_cons_of_mem y (List.mem_of_mem_drop this)
      · rw [if_neg hc] at hp
        cases hsp : splitOnListFuel sep fuel ys with
        | nil =>
          rw [hsp] at hp
          rcases List.mem_cons.1 hp with h | h
          · rw [h] at hx
            have hxy : x = y := by simpa using hx
            exact hxy ▸ List.mem_cons_self y ys
          · cases h
        | cons a t =>
          rw [hsp] at hp
          rcases List.mem_cons.1 hp with h | h
          · rw [h] at hx
            rcases List.mem_cons.1 hx with h2 | h2
            · exact h2 ▸ List.mem_cons_self y ys
            · exact List.mem_cons_of_mem y
                (ih _ a x (hsp ▸ List.mem_cons_self a t) h2)
          · exact List.mem_cons_of_mem y
              (ih _ p x (hsp ▸ List.mem_cons_of_mem a h) hx)

theorem mem_of_mem_splitOnList {sep l p : List Char} {x : Char}
    (hp : p ∈ splitOnList sep l) (hx : x ∈ p) : x ∈ l :=
  mem_of_mem_splitOnListFuel l.length l p x hp hx

theorem contains_of_splitOnListFuel_two {sep : List Char} (fuel : Nat) :
    ∀ l : List Char, 2 ≤ (splitOnListFuel sep fuel l).length →
      containsList sep l = true := by
  induction fuel with
  | zero =>
    intro l h
    cases l with
    | nil => simp [splitOnListFuel] at h
    | cons y ys => simp [splitOnListFuel] at h
  | succ fuel ih =>
    intro l h
    cases l with
    | nil => simp [splitOnListFuel] at h
    | cons y ys =>
      rw [splitOnListFuel] at h
      by_cases hc : sep ≠ [] ∧ sep.isPrefixOf (y :: ys)
      · rw [containsList, hc.2]
        rfl
      · rw [if_neg hc] at h
        cases hsp : splitOnListFuel sep fuel ys with
        | nil =>
          rw [hsp] at h
          simp at h
        | cons a t =>
          rw [hsp] at h
          simp only [List.length_cons] at h
          have h2 : 2 ≤ (splitOnListFuel sep fuel ys).length := by
            rw [hsp]
            simpa using h
          rw [containsList, ih ys h2]
          simp

theorem contains_of_pySplit_two {s sep : String}
    (h : 2 ≤ (pySplit s sep).length) : pyContains s sep = true := by
  unfold pySplit at h
  rw [List.length_map] at h
  exact contains_of_splitOnListFuel_two s.data.length s.data h

/-! ## Lemmas about the conflict-fix table -/

theorem exactLookup_mem {line v : String} :
    ∀ rules : List (String × String),
      exactLookup line rules = some v → v ∈ rules.map (fun r => r.2) := by
  intro rules
  induction rules with
  | nil => intro h; cases h
  | cons r rest ih =>
    intro h
    rw [exactLookup] at h
    by_cases hk : r.1 == line
    · rw [if_pos hk] at h
      injection h with h1
      rw [List.map_cons, h1]
      exact List.mem_cons_self v _
    · rw [if_neg hk] at h
      exact List.mem_cons_of_mem r.2 (ih h)

theorem patternLoop_mem {line v : String} :
    ∀ rules : List (String × String),
      patternLoop line rules = some v → v ∈ rules.map (fun r => r.2) := by
  intro rules
  induction rules with
  | nil => intro h; cases h
  | cons r rest ih =>
    intro h
    rw [patternLoop] at h
    by_cases hk : patternTest r.1 line = true
    · rw [if_pos hk] at h
      injection h with h1
      rw [List.map_cons, h1]
      exact List.mem_cons_self v _
    · rw [if_neg hk] at h
      exact List.mem_cons_of_mem r.2 (ih h)

theorem mem_ruleOutputs_cases {v : String} (h : v ∈ ruleOutputs) :
    v = "numpy>=2.0.0,<2.3.0" ∨ v = "pillow>=10.0.0" ∨ v = "scipy>=1.11.0" := by
  simp only [ruleOutputs, conflict_fixes, List.map_cons, List.map_nil] at h
  rcases List.mem_cons.1 h with h1 | h1
  · exact Or.inl h1
  rcases List.mem_cons.1 h1 with h2 | h2
  · exact Or.inl h2
  rcases List.mem_cons.1 h2 with h3 | h3
  · exact Or.inr (Or.inl h3)
  rcases List.mem_cons.1 h3 with h4 | h4
  · exact Or.inr (Or.inr h4)
  · cases h4

/-! ## Structural lemmas about the rewriter line functions -/

theorem string_data_append (s t : String) : (s ++ t).data = s.data ++ t.data := rfl

theorem pyStrip_data (s : String) : (pyStrip s).data = stripList s.data := rfl

theorem fixLine_eq (line0 : String) : fixLine line0 =
    (if pyStrip line0 == "" || pyStartsWith (pyStrip line0) "#" then pyStrip line0
     else
       match exactLookup (pyStrip line0) conflict_fixes with
       | some replacement => replacement
       | none =>
         match patternLoop (pyStrip line0) conflict_fixes with
         | some replacement => replacement
         | none => pyStrip line0) := rfl

theorem flexLine_eq (line0 : String) : flexLine line0 =
    (if pyStrip line0 == "" || pyStartsWith (pyStrip line0) "#" then pyStrip line0
     else if pyContains (pyStrip line0) "==" then
       (if 2 ≤ (pySplit ((pySplit (pyStrip line0) "==").getD 1 "") ".").length then
          (pySplit (pyStrip line0) "==").headD "" ++ ">=" ++
            (pySplit ((pySplit (pyStrip line0) "==").getD 1 "") ".").getD 0 "" ++ "." ++
            (pySplit ((pySplit (pyStrip line0) "==").getD 1 "") ".").getD 1 "" ++ ".0"
        else
          (pySplit (pyStrip line0) "==").headD "" ++ ">=" ++
            (pySplit (pyStrip line0) "==").getD 1 "")
     else pyStrip line0) := rfl

theorem headD_string_default_or_mem (L : List String) (d : String) :
    L.headD d = d ∨ L.headD d ∈ L := by
  cases L with
  | nil => exact Or.inl rfl
  | cons x xs => exact Or.inr (List.mem_cons_self x xs)

theorem newline_not_in_pySplit (sep : String) {s : String} (h : '\n' ∉ s.data) :
    ∀ p ∈ pySplit s sep, '\n' ∉ p.data := by
  intro p hp hmem
  rcases List.mem_map.1 hp with ⟨pd, hpd, hpeq⟩
  rw [← hpeq] at hmem
  exact h (mem_of_mem_splitOnList hpd hmem)

theorem newline_not_in_fixLine {line0 : String} (h : '\n' ∉ line0.data) :
    '\n' ∉ (fixLine line0).data := by
  have hstrip : '\n' ∉ (pyStrip line0).data := by
    intro hmem
    exact h (mem_of_mem_stripList hmem)
  rw [fixLine_eq]
  split
  · exact hstrip
  · split
    · rename_i replacement heq
      rcases mem_ruleOutputs_cases (exactLookup_mem _ heq) with hv | hv | hv <;>
        (subst hv; decide)
    · split
      · rename_i replacement heq
        rcases mem_ruleOutputs_cases (patternLoop_mem _ heq) with hv | hv | hv <;>
          (subst hv; decide)
      · exact hstrip

theorem newline_not_in_flexLine {line0 : String} (h : '\n' ∉ line0.data) :
    '\n' ∉ (flexLine line0).data := by
  have hstrip : '\n' ∉ (pyStrip line0).data := by
    intro hmem
    exact h (mem_of_mem_stripList hmem)
  have hparts := newline_not_in_pySplit "==" hstrip
  have hpkg : '\n' ∉ ((pySplit (pyStrip line0) "==").headD "").data := by
    rcases headD_string_default_or_mem (pySplit (pyStrip line0) "==") "" with he | hm
    · rw [he]
      intro hx
      cases hx
    · exact hparts _ hm
  have hver : '\n' ∉ ((pySplit (pyStrip line0) "==").getD 1 "").data := by
    rcases getD_default_or_mem (pySplit (pyStrip line0) "==") 1 "" with he | hm
    · rw [he]
      intro hx
      cases hx
    · exact hparts _ hm
  have hvparts := newline_not_in_pySplit "." hver
  have hmaj : '\n' ∉
      ((pySplit ((pySplit (pyStrip line0) "==").getD 1 "") ".").getD 0 "").data := by
    rcases getD_default_or_mem
        (pySplit ((pySplit (pyStrip line0) "==").getD 1 "") ".") 0 "" with he | hm
    · rw [he]
      intro hx
      cases hx
    · exact hvparts _ hm
  have hmin : '\n' ∉
      ((pySplit ((pySplit (pyStrip line0) "==").getD 1 "") ".").getD 1 "").data := by
    rcases getD_default_or_mem
        (pySplit ((pySplit (pyStrip line0) "==").getD 1 "") ".") 1 "" with he | hm
    · rw [he]
      intro hx
      cases hx
    · exact hvparts _ hm
  rw [flexLine_eq]
  split
  · exact hstrip
  · split
    · split
      · intro hmem
        simp only [string_data_append, List.mem_append] at hmem
        rcases hmem with ((((h1 | h1) | h1) | h1) | h1) | h1
        · exact hpkg h1
        · exact absurd h1 (by decide)
        · exact hmaj h1
        · exact absurd h1 (by decide)
        · exact hmin h1
        · exact absurd h1 (by decide)
      · intro hmem
        simp only [string_data_append, List.mem_append] at hmem
        rcases hmem with (h1 | h1) | h1
        · exact hpkg h1
        · exact absurd h1 (by decide)
        · exact hver h1
    · exact hstrip

theorem fixLine_idem (l : String) : fixLine (fixLine l) = fixLine l := by
  rw [fixLine_eq l]
  split
  · rename_i hcond
    rw [fixLine_eq, pyStrip_idem, if_pos hcond]
  · rename_i hcond
    split
    · rename_i replacement heq
      rcases mem_ruleOutputs_cases (exactLookup_mem _ heq) with hv | hv | hv <;>
        (subst hv; decide)
    · rename_i hex
      split
      · rename_i replacement heq
        rcases mem_ruleOutputs_cases (patternLoop_mem _ heq) with hv | hv | hv <;>
          (subst hv; decide)
      · rename_i hpat
        rw [fixLine_eq, pyStrip_idem, if_neg hcond, hex, hpat]

theorem fixLine_clean_head {l : String} (hne : l.data ≠ [])
    (h : isPySpace (l.data.headD '.') = false) :
    (fixLine l).data ≠ [] ∧ isPySpace ((fixLine l).data.headD '.') = false := by
  have hs := stripList_head hne h
  rw [fixLine_eq]
  split
  · refine ⟨hs.1, ?_⟩
    rw [pyStrip_data, hs.2]
    exact h
  · split
    · rename_i replacement heq
      rcases mem_ruleOutputs_cases (exactLookup_mem _ heq) with hv | hv | hv <;>
        (subst hv; exact ⟨by decide, by decide⟩)
    · split
      · rename_i replacement heq
        rcases mem_ruleOutputs_cases (patternLoop_mem _ heq) with hv | hv | hv <;>
          (subst hv; exact ⟨by decide, by decide⟩)
      · refine ⟨hs.1, ?_⟩
        rw [pyStrip_data, hs.2]
        exact h

theorem fixLine_clean_last {l : String} (hne : l.data ≠ [])
    (h : isPySpace (l.data.reverse.headD '.') = false) :
    (fixLine l).data ≠ [] ∧
      isPySpace ((fixLine l).data.reverse.headD '.') = false := by
  have hs := stripList_last hne h
  rw [fixLine_eq]
  split
  · refine ⟨hs.1, ?_⟩
    rw [pyStrip_data, hs.2]
    exact h
  · split
    · rename_i replacement heq
      rcases mem_ruleOutputs_cases (exactLookup_mem _ heq) with hv | hv | hv <;>
        (subst hv; exact ⟨by decide, by decide⟩)
    · split
      · rename_i replacement heq
        rcases mem_ruleOutputs_cases (patternLoop_mem _ heq) with hv | hv | hv <;>
          (subst hv; exact ⟨by decide, by decide⟩)
      · refine ⟨hs.1, ?_⟩
        rw [pyStrip_data, hs.2]
        exact h

/-! ## Manifest-level structure of the rewriters -/

theorem map_mk_map_data (L : List String) : (L.map String.data).map String.mk = L := by
  induction L with
  | nil => rfl
  | cons x xs ih => simp [ih, mk_data]

theorem newline_not_in_pySplitChar (t : String) :
    ∀ l ∈ pySplitChar t '\n', '\n' ∉ l.data := by
  intro l hl
  rcases List.mem_map.1 hl with ⟨pd, hpd, hpl⟩
  rw [← hpl]
  exact not_mem_of_mem_splitOnChar hpd

theorem pySplitChar_ne_nil (t : String) (c : Char) : pySplitChar t c ≠ [] := by
  intro h
  unfold pySplitChar at h
  rw [List.map_eq_nil_iff] at h
  exact splitOnChar_ne_nil c t.data h

theorem splitChar_pyJoinNL (out : List String) (hne : out ≠ [])
    (h : ∀ s ∈ out, '\n' ∉ s.data) :
    pySplitChar (pyJoinNL out) '\n' = out := by
  have h2 : ∀ p ∈ out.map String.data, '\n' ∉ p := by
    intro p hp
    rcases List.mem_map.1 hp with ⟨s, hs, hps⟩
    rw [← hps]
    exact h s hs
  have hne2 : out.map String.data ≠ [] := by
    intro h0
    rw [List.map_eq_nil_iff] at h0
    exact hne h0
  unfold pySplitChar pyJoinNL
  rw [data_mk, splitOnChar_joinChar '\n' (out.map String.data) hne2 h2,
    map_mk_map_data]

theorem fix_lines (t : String) :
    pySplitChar (fix_dependency_conflicts t) '\n' =
      (pySplitChar (pyStrip t) '\n').map fixLine := by
  unfold fix_dependency_conflicts
  apply splitChar_pyJoinNL
  · intro h
    rw [List.map_eq_nil_iff] at h
    exact pySplitChar_ne_nil (pyStrip t) '\n' h
  · intro s hs
    rcases List.mem_map.1 hs with ⟨l0, hl0, hsl⟩
    rw [← hsl]
    exact newline_not_in_fixLine (newline_not_in_pySplitChar (pyStrip t) l0 hl0)

theorem flex_lines (t : String) :
    pySplitChar (make_requirements_flexible t) '\n' =
      (pySplitChar (pyStrip t) '\n').map flexLine := by
  unfold make_requirements_flexible
  apply splitChar_pyJoinNL
  · intro h
    rw [List.map_eq_nil_iff] at h
    exact pySplitChar_ne_nil (pyStrip t) '\n' h
  · intro s hs
    rcases List.mem_map.1 hs with ⟨l0, hl0, hsl⟩
    rw [← hsl]
    exact newline_not_in_flexLine (newline_not_in_pySplitChar (pyStrip t) l0 hl0)

/-! ## Strip stability of the conflict-fix output, and idempotence -/

theorem takeWhile_head_keep (p : Char → Bool) (a : Char) (rest : List Char)
    (ha : p a = true) :
    (a :: rest).takeWhile p ≠ [] ∧
      ((a :: rest).takeWhile p).headD '.' = a := by
  rw [List.takeWhile_cons, if_pos ha]
  exact ⟨List.cons_ne_nil a _, rfl⟩

theorem fix_strip_stable {m : String} (hs : stripList m.data ≠ []) :
    pyStrip (fix_dependency_conflicts m) = fix_dependency_conflicts m := by
  rcases stripList_clean m.data with h | ⟨hh, hl⟩
  · exact absurd h hs
  -- notation for the pieces
  have hNL : isPySpace '\n' = true := by decide
  have hhne : (((stripList m.data).headD '.') != '\n') = true := by
    by_cases he : (stripList m.data).headD '.' = '\n'
    · rw [he] at hh
      rw [hNL] at hh
      exact absurd hh (by decide)
    · simpa using he
  have hlne : (((stripList m.data).reverse.headD '.') != '\n') = true := by
    by_cases he : (stripList m.data).reverse.headD '.' = '\n'
    · rw [he] at hl
      rw [hNL] at hl
      exact absurd hl (by decide)
    · simpa using he
  -- the first line of the split is non-empty and starts with the head of the strip
  have hL1 : (splitOnChar '\n' (stripList m.data)).headD [] ≠ [] ∧
      ((splitOnChar '\n' (stripList m.data)).headD []).headD '.' =
        (stripList m.data).headD '.' := by
    rw [headD_splitOnChar]
    cases hsc : stripList m.data with
    | nil => exact absurd hsc hs
    | cons a rest =>
      have ha : (a != '\n') = true := by
        rw [hsc] at hhne
        simpa using hhne
      have hkp := takeWhile_head_keep (fun x => x != '\n') a rest ha
      exact ⟨hkp.1, by rw [hkp.2]; rfl⟩
  -- the last line of the split is non-empty and ends with the last of the strip
  have hLN : (splitOnChar '\n' (stripList m.data)).getLastD [] ≠ [] ∧
      ((splitOnChar '\n' (stripList m.data)).getLastD []).reverse.headD '.' =
        (stripList m.data).reverse.headD '.' := by
    rw [getLastD_splitOnChar]
    cases hsc : (stripList m.data).reverse with
    | nil =>
      exact absurd (by simpa using congrArg List.reverse hsc) hs
    | cons b rest =>
      have hb : (b != '\n') = true := by
        rw [hsc] at hlne
        simpa using hlne
      have hkeep := takeWhile_head_keep (fun x => x != '\n') b rest hb
      constructor
      · intro h0
        rw [List.reverse_eq_nil_iff] at h0
        exact hkeep.1 h0
      · rw [List.reverse_reverse]
        rw [hkeep.2]
        rfl
  -- transfer to the mapped output lines
  have hLne : splitOnChar '\n' (stripList m.data) ≠ [] :=
    splitOnChar_ne_nil '\n' (stripList m.data)
  have houtD : (fix_dependency_conflicts m).data =
      joinChar '\n' ((splitOnChar '\n' (stripList m.data)).map
        (fun pd => (fixLine (String.mk pd)).data)) := by
    unfold fix_dependency_conflicts pyJoinNL pySplitChar
    rw [data_mk, pyStrip_data, List.map_map, List.map_map]
    rfl
  have houtne : (splitOnChar '\n' (stripList m.data)).map
      (fun pd => (fixLine (String.mk pd)).data) ≠ [] := by
    intro h0
    rw [List.map_eq_nil_iff] at h0
    exact hLne h0
  have hfhead := fixLine_clean_head
    (l := String.mk ((splitOnChar '\n' (stripList m.data)).headD []))
    hL1.1 (by rw [data_mk, hL1.2]; exact hh)
  have hflast := fixLine_clean_last
    (l := String.mk ((splitOnChar '\n' (stripList m.data)).getLastD []))
    hLN.1 (by rw [data_mk, hLN.2]; exact hl)
  have hmap_head : ((splitOnChar '\n' (stripList m.data)).map
      (fun pd => (fixLine (String.mk pd)).data)).headD [] =
        (fixLine (String.mk ((splitOnChar '\n' (stripList m.data)).headD []))).data :=
    headD_map _ _ [] [] hLne
  have hmap_last : ((splitOnChar '\n' (stripList m.data)).map
      (fun pd => (fixLine (String.mk pd)).data)).getLastD [] =
        (fixLine (String.mk ((splitOnChar '\n' (stripList m.data)).getLastD []))).data :=
    getLastD_map _ _ [] [] hLne
  have hjoin_head := headD_joinChar '\n' _ houtne (by rw [hmap_head]; exact hfhead.1)
  have hjoin_last := lastD_joinChar '\n' _ houtne (by rw [hmap_last]; exact hflast.1)
  apply string_eq_of_data
  rw [pyStrip_data, houtD]
  apply stripList_eq_self
  · rw [hjoin_head, hmap_head]
    exact hfhead.2
  · rw [hjoin_last, hmap_last]
    exact hflast.2

theorem map_fixLine_idem (ls : List String) :
    ls.map (fun x => fixLine (fixLine x)) = ls.map fixLine := by
  induction ls with
  | nil => rfl
  | cons x xs ih => simp [fixLine_idem, ih]

theorem fix_dependency_conflicts_idem (m : String) :
    fix_dependency_conflicts (fix_dependency_conflicts m) =
      fix_dependency_conflicts m := by
  by_cases hs : stripList m.data = []
  · have h1 : pyStrip m = "" := string_eq_of_data (by rw [pyStrip_data, hs])
    have h2 : fix_dependency_conflicts m = "" := by
      unfold fix_dependency_conflicts
      rw [h1]
      decide
    rw [h2]
    decide
  · have hstable := fix_strip_stable hs
    conv_lhs => rw [fix_dependency_conflicts, hstable, fix_lines m]
    rw [List.map_map]
    have : ((pySplitChar (pyStrip m) '\n').map (fixLine ∘ fixLine)) =
        (pySplitChar (pyStrip m) '\n').map (fun x => fixLine (fixLine x)) := rfl
    rw [this, map_fixLine_idem]
    rfl

/-! ## Ladder loop lemmas -/

theorem ladderLoop_all_fail (oracle : String → Bool × String × String)
    (h : ∀ s, (oracle s).1 = false) :
    ∀ ss, (ladderLoop oracle ss).2 = (none, "All strategies failed") := by
  intro ss
  induction ss with
  | nil => rfl
  | cons sc rest ih =>
    cases sc with
    | mk strategy_name content =>
      rw [ladderLoop]
      simp only [h content, if_false]
      exact ih

theorem ladderLoop_success_oracle (oracle : String → Bool × String × String) :
    ∀ ss c, (ladderLoop oracle ss).2.1 = some c → (oracle c).1 = true := by
  intro ss
  induction ss with
  | nil =>
    intro c h
    cases h
  | cons sc rest ih =>
    cases sc with
    | mk strategy_name content =>
      intro c h
      rw [ladderLoop] at h
      cases ho : (oracle content).1 with
      | true =>
        rw [ho] at h
        simp only [if_true] at h
        injection h with h1
        rw [← h1]
        exact ho
      | false =>
        rw [ho] at h
        simp only [if_false] at h
        exact ih c h

/-! ## find? characterization of the rule lookups -/

theorem exactLookup_eq_find (line : String) (rules : List (String × String)) :
    exactLookup line rules =
      (rules.find? (fun r => r.1 == line)).map (fun r => r.2) := by
  induction rules with
  | nil => rfl
  | cons r rest ih =>
    rw [exactLookup]
    by_cases hk : (r.1 == line) = true
    · rw [if_pos hk]
      simp [List.find?, hk]
    · have hk2 : (r.1 == line) = false := by simpa using hk
      rw [if_neg hk]
      simp [List.find?, hk2, ih]

theorem patternLoop_eq_find (line : String) (rules : List (String × String)) :
    patternLoop line rules =
      (rules.find? (fun r => patternTest r.1 line)).map (fun r => r.2) := by
  induction rules with
  | nil => rfl
  | cons r rest ih =>
    rw [patternLoop]
    by_cases hk : patternTest r.1 line = true
    · rw [if_pos hk]
      simp [List.find?, hk]
    · have hk2 : patternTest r.1 line = false := by simpa using hk
      rw [if_neg hk]
      simp [List.find?, hk2, ih]

/-! ## Per-line helper lemmas for the version-upgrade pass -/

theorem upgradeLine_eq (lookup : String → LookupOutcome) (line : String) :
    upgradeLine lookup line =
      (if pyStrip line == "" || pyStartsWith (pyStrip line) "#" then pyStrip line
       else
         match matchPackage (pyStrip line) with
         | none => pyStrip line
         | some package =>
           match get_latest_version (lookup package) with
           | some latest_version =>
             if latest_version == "" then pyStrip line
             else package ++ "==" ++ latest_version
           | none => pyStrip line) := rfl

theorem upgradeLoop_eq_map (lookup : String → LookupOutcome) (lines : List String) :
    upgradeLoop lookup lines = lines.map (upgradeLine lookup) := by
  induction lines with
  | nil => rfl
  | cons x xs ih => rw [upgradeLoop, List.map_cons, ih]

theorem matchPackage_not_comment {line package : String}
    (h : matchPackage line = some package) :
    (line == "" || pyStartsWith line "#") = false := by
  unfold matchPackage at h
  cases hd : line.data with
  | nil =>
    rw [hd] at h
    cases h
  | cons c rest =>
    rw [hd] at h
    dsimp only at h
    by_cases hc : isPackageChar c = true
    · have hne : (line == "") = false := by
        rw [beq_eq_false_iff_ne]
        intro he
        rw [he] at hd
        cases hd
      have hcm : pyStartsWith line "#" = false := by
        unfold pyStartsWith
        rw [hd]
        have : ('#' == c) = false := by
          rw [beq_eq_false_iff_ne]
          intro he
          rw [← he] at hc
          cases hc
        simp [List.isPrefixOf, this]
      rw [hne, hcm]
      rfl
    · exfalso
      rw [if_neg hc] at h
      cases h

theorem upgradeLine_lookup_none (lookup : String → LookupOutcome)
    (line package : String) (hstrip : pyStrip line = line)
    (hm : matchPackage line = some package)
    (hv : get_latest_version (lookup package) = none) :
    upgradeLine lookup line = line := by
  rw [upgradeLine_eq, hstrip, if_neg (by rw [matchPackage_not_comment hm]; simp)]
  simp only [hm, hv]

theorem upgradeLine_lookup_empty (lookup : String → LookupOutcome)
    (line package : String) (hstrip : pyStrip line = line)
    (hm : matchPackage line = some package)
    (hv : get_latest_version (lookup package) = some "") :
    upgradeLine lookup line = line := by
  rw [upgradeLine_eq, hstrip, if_neg (by rw [matchPackage_not_comment hm]; simp)]
  simp only [hm, hv]
  rfl

theorem upgradeLine_lookup_some (lookup : String → LookupOutcome)
    (line package latest : String) (hstrip : pyStrip line = line)
    (hm : matchPackage line = some package)
    (hv : get_latest_version (lookup package) = some latest)
    (hne : (latest == "") = false) :
    upgradeLine lookup line = package ++ "==" ++ latest := by
  rw [upgradeLine_eq, hstrip, if_neg (by rw [matchPackage_not_comment hm]; simp)]
  simp only [hm, hv, hne]
  rfl

/-! ## Per-line helper lemmas for the flexibilization rewriter -/

theorem pySplit_two_not_blank {line name version sep : String}
    (h : pySplit line sep = [name, version]) : (line == "") = false := by
  rw [beq_eq_false_iff_ne]
  intro he
  rw [he] at h
  have : pySplit "" sep = [""] := rfl
  rw [this] at h
  cases h

theorem flexLine_pin (line name version : String)
    (hstrip : pyStrip line = line)
    (hcm : pyStartsWith line "#" = false)
    (hsplit : pySplit line "==" = [name, version]) :
    flexLine line =
      (if 2 ≤ (pySplit version ".").length then
        name ++ ">=" ++ (pySplit version ".").getD 0 "" ++ "." ++
          (pySplit version ".").getD 1 "" ++ ".0"
      else name ++ ">=" ++ version) := by
  have hcontains : pyContains line "==" = true := by
    apply contains_of_pySplit_two
    rw [hsplit]
    simp
  rw [flexLine_eq, hstrip, if_neg (by rw [pySplit_two_not_blank hsplit, hcm]; simp),
    if_pos hcontains, hsplit]
  rfl

/-! ## Claim C1 -/

/-- C1 counterexample: with an oracle that reports success on the unmodified
original candidate, the ladder does return the input unchanged with label
"Original" after exactly one oracle call, but its event trace contains
rewriter invocations (the strategies list is built eagerly, source lines
104-109), contradicting the claim that no rewriter is invoked. -/
theorem ladder_short_circuit_cex :
    (alwaysYesOracle "numpy==2.3.1").1 = true ∧
    (progressive_fix_requirements_trace alwaysYesOracle "numpy==2.3.1").2 =
      (some "numpy==2.3.1", "Original") ∧
    (progressive_fix_requirements_trace alwaysYesOracle "numpy==2.3.1").1.filter
      isOracleEvent = [.oracleCall "numpy==2.3.1"] ∧
    LadderEvent.fixCall ∈
      (progressive_fix_requirements_trace alwaysYesOracle "numpy==2.3.1").1 := by
  refine ⟨rfl, ?_, ?_, ?_⟩ <;> decide

/-- C1 (amended): if the oracle reports success on the unmodified Original
candidate, the strategy ladder returns the input text unchanged with strategy
label "Original" and invokes the oracle exactly once; however, the two
rewriters are each invoked twice up front while the candidate list is built,
regardless of the oracle outcome, so the full event trace is two fix
invocations, two flexibilization invocations, then the single oracle call. -/
theorem ladder_short_circuit_amended (oracle : String → Bool × String × String)
    (content : String) (h : (oracle content).1 = true) :
    progressive_fix_requirements_trace oracle content =
      ([.fixCall, .flexCall, .fixCall, .flexCall, .oracleCall content],
       (some content, "Original")) := by
  unfold progressive_fix_requirements_trace strategiesTraced fixTraced flexTraced
  simp [ladderLoop, h]

/-- C1 witness: the amended theorem applied to the always-succeeding oracle
at a concrete manifest. -/
theorem ladder_short_circuit_witness :
    (alwaysYesOracle "flask==1.0.0").1 = true ∧
    progressive_fix_requirements_trace alwaysYesOracle "flask==1.0.0" =
      ([.fixCall, .flexCall, .fixCall, .flexCall, .oracleCall "flask==1.0.0"],
       (some "flask==1.0.0", "Original")) :=
  ⟨rfl, ladder_short_circuit_amended alwaysYesOracle "flask==1.0.0" rfl⟩

/-! ## Claim C2 -/

/-- C2: if the oracle fails on every candidate, the ladder invokes the oracle
exactly four times, on the candidates in the fixed order Original, the
conflict-fixed text, the flexibilized text, and the flexibilization of the
conflict-fixed text, and returns the total-failure result exposing no
winning candidate. -/
theorem ladder_exhaustion (oracle : String → Bool × String × String)
    (content : String) (h : ∀ s, (oracle s).1 = false) :
    (progressive_fix_requirements_trace oracle content).1.filter isOracleEvent =
      [.oracleCall content,
       .oracleCall (fix_dependency_conflicts content),
       .oracleCall (make_requirements_flexible content),
       .oracleCall (make_requirements_flexible (fix_dependency_conflicts content))] ∧
    (progressive_fix_requirements_trace oracle content).2 =
      (none, "All strategies failed") := by
  unfold progressive_fix_requirements_trace strategiesTraced fixTraced flexTraced
  simp [ladderLoop, h, isOracleEvent, List.filter]

/-- C2 witness: the theorem applied to the always-failing oracle at a
concrete manifest, with the four candidates evaluated. -/
theorem ladder_exhaustion_witness :
    (∀ s, (alwaysNoOracle s).1 = false) ∧
    (progressive_fix_requirements_trace alwaysNoOracle "flask==1.0.0").1.filter
      isOracleEvent =
      [.oracleCall "flask==1.0.0",
       .oracleCall (fix_dependency_conflicts "flask==1.0.0"),
       .oracleCall (make_requirements_flexible "flask==1.0.0"),
       .oracleCall (make_requirements_flexible
         (fix_dependency_conflicts "flask==1.0.0"))] ∧
    (progressive_fix_requirements_trace alwaysNoOracle "flask==1.0.0").2 =
      (none, "All strategies failed") ∧
    make_requirements_flexible "flask==1.0.0" = "flask>=1.0.0" :=
  ⟨fun _ => rfl,
   (ladder_exhaustion alwaysNoOracle "flask==1.0.0" (fun _ => rfl)).1,
   (ladder_exhaustion alwaysNoOracle "flask==1.0.0" (fun _ => rfl)).2,
   by decide⟩

/-! ## Claim C3 -/

/-- C3 counterexample: the source line pipeline strips surrounding whitespace
of the whole text and of each line, so parse-then-serialize is not
byte-identical on a well-formed single-line manifest with leading
whitespace; the conflict-fix pass with no rule firing exhibits the same
normalization. -/
theorem manifest_round_trip_cex :
    serializeManifest (parseManifest " requests==2.0.0") = "requests==2.0.0" ∧
    "requests==2.0.0" ≠ " requests==2.0.0" ∧
    fix_dependency_conflicts " requests==2.0.0" = "requests==2.0.0" := by
  refine ⟨?_, ?_, ?_⟩ <;> decide

/-- C3 (amended): for every manifest text that carries no surrounding
whitespace (the text equals its own strip and every line equals its own
strip), parsing into the ordered line sequence and re-joining by newline
with no rewrite applied reproduces the input byte-identically, interior
blank lines included. -/
theorem manifest_round_trip_amended (text : String)
    (h1 : pyStrip text = text)
    (h2 : ∀ l ∈ pySplitChar text '\n', pyStrip l = l) :
    serializeManifest (parseManifest text) = text := by
  unfold parseManifest serializeManifest
  rw [h1, map_strip_id h2]
  unfold pyJoinNL pySplitChar
  rw [map_data_map_mk, joinChar_splitOnChar]

/-- C3 witness: the amended round trip on a stripped manifest with an
interior blank line. -/
theorem manifest_round_trip_witness :
    pyStrip "numpy==2.3.1\n\nrequests==2.0.0" = "numpy==2.3.1\n\nrequests==2.0.0" ∧
    (∀ l ∈ pySplitChar "numpy==2.3.1\n\nrequests==2.0.0" '\n', pyStrip l = l) ∧
    serializeManifest (parseManifest "numpy==2.3.1\n\nrequests==2.0.0") =
      "numpy==2.3.1\n\nrequests==2.0.0" :=
  ⟨by decide, by decide,
   manifest_round_trip_amended "numpy==2.3.1\n\nrequests==2.0.0"
     (by decide) (by decide)⟩

/-! ## Claim C4 -/

/-- C4 counterexample: under the claim's matching description (prefix = the
rule key's substring before the first '=' or '>'), the line "numpy>=1.0"
matches the first numpy rule and would be replaced, but the code leaves it
unchanged: the code's prefix test for '=='-keys requires the line to start
with "numpy==", not with "numpy". -/
theorem conflict_fix_contract_cex :
    fixLineSpec "numpy>=1.0" = "numpy>=2.0.0,<2.3.0" ∧
    fix_dependency_conflicts "numpy>=1.0" = "numpy>=1.0" ∧
    "numpy>=1.0" ≠ "numpy>=2.0.0,<2.3.0" := by
  refine ⟨?_, ?_, ?_⟩ <;> decide

/-- C4 (amended): for every stripped requirement line, the conflict-fix pass
first attempts an exact match of the raw line against the rule keys and, if
none matches, a per-rule prefix test — the line starts with the key's
substring before the first '=' followed by "==", or with the key's
substring before the first '>'; the first matching rule in table order
replaces the whole line (so at most one rule fires), a line matching no
rule passes through unchanged, and comment or blank lines pass through
unchanged; in particular "numpy==2.3.1" is replaced by
"numpy>=2.0.0,<2.3.0" while "requests==2.0.0" is unchanged. -/
theorem conflict_fix_contract_amended :
    (∀ line : String, pyStrip line = line →
      (line == "" || pyStartsWith line "#") = false →
      fixLine line =
        ((conflict_fixes.find? (fun r => r.1 == line)).map (fun r => r.2)).getD
          (((conflict_fixes.find? (fun r => patternTest r.1 line)).map
            (fun r => r.2)).getD line)) ∧
    (∀ line : String, pyStrip line = line →
      (line == "" || pyStartsWith line "#") = true → fixLine line = line) ∧
    fixLine "numpy==2.3.1" = "numpy>=2.0.0,<2.3.0" ∧
    fixLine "requests==2.0.0" = "requests==2.0.0" ∧
    fix_dependency_conflicts "numpy==2.3.1\nrequests==2.0.0" =
      "numpy>=2.0.0,<2.3.0\nrequests==2.0.0" := by
  refine ⟨?_, ?_, by decide, by decide, by decide⟩
  · intro line h1 h2
    rw [fixLine_eq, h1, if_neg (by rw [h2]; simp),
      exactLookup_eq_find, patternLoop_eq_find]
    cases he : conflict_fixes.find? (fun r => r.1 == line) with
    | some r => rfl
    | none =>
      cases hp : conflict_fixes.find? (fun r => patternTest r.1 line) with
      | some r => rfl
      | none => rfl
  · intro line h1 h2
    rw [fixLine_eq, h1, if_pos h2]

/-- C4 witness: the amended per-line contract instantiated at the concrete
line "numpy==2.3.1". -/
theorem conflict_fix_contract_witness :
    pyStrip "numpy==2.3.1" = "numpy==2.3.1" ∧
    (("numpy==2.3.1" : String) == "" || pyStartsWith "numpy==2.3.1" "#") = false ∧
    fixLine "numpy==2.3.1" =
      ((conflict_fixes.find? (fun r => r.1 == "numpy==2.3.1")).map
        (fun r => r.2)).getD
        (((conflict_fixes.find? (fun r => patternTest r.1 "numpy==2.3.1")).map
          (fun r => r.2)).getD "numpy==2.3.1") :=
  ⟨by decide, by decide,
   conflict_fix_contract_amended.1 "numpy==2.3.1" (by decide) (by decide)⟩

/-! ## Claim C5 -/

/-- C5: for every stripped requirement line that is an exact pin
name==version, if splitting the version on '.' yields at least two numeric
components the flexibilization rewrites the line to name>=major.minor.0,
dropping the patch component and appending ".0"; if the split has fewer
than two components it rewrites to name>=version with the version value
unchanged; and every line without the exact-pin operator passes through
unchanged. -/
theorem flexibilization_postcondition :
    (∀ line name version major minor : String, ∀ rest : List String,
      pyStrip line = line → pyStartsWith line "#" = false →
      pySplit line "==" = [name, version] →
      pySplit version "." = major :: minor :: rest →
      isNumericString major = true → isNumericString minor = true →
      flexLine line = name ++ ">=" ++ major ++ "." ++ minor ++ ".0") ∧
    (∀ line name version : String,
      pyStrip line = line → pyStartsWith line "#" = false →
      pySplit line "==" = [name, version] →
      (pySplit version ".").length < 2 →
      flexLine line = name ++ ">=" ++ version) ∧
    (∀ line : String, pyStrip line = line → pyContains line "==" = false →
      flexLine line = line) := by
  refine ⟨?_, ?_, ?_⟩
  · intro line name version major minor rest h1 h2 hsplit hvsplit hn1 hn2
    rw [flexLine_pin line name version h1 h2 hsplit, hvsplit,
      if_pos (by simp)]
    rfl
  · intro line name version h1 h2 hsplit hlen
    rw [flexLine_pin line name version h1 h2 hsplit, if_neg (by omega)]
  · intro line h1 hc
    rw [flexLine_eq, h1]
    by_cases hbc : (line == "" || pyStartsWith line "#") = true
    · rw [if_pos hbc]
    · rw [if_neg hbc, if_neg (by rw [hc]; simp)]

/-- C5 witness: the three branches instantiated at concrete lines. -/
theorem flexibilization_witness :
    pySplit "numpy==1.2.3" "==" = ["numpy", "1.2.3"] ∧
    pySplit "1.2.3" "." = "1" :: "2" :: ["3"] ∧
    flexLine "numpy==1.2.3" = "numpy" ++ ">=" ++ "1" ++ "." ++ "2" ++ ".0" ∧
    pySplit "pkg==7" "==" = ["pkg", "7"] ∧
    flexLine "pkg==7" = "pkg" ++ ">=" ++ "7" ∧
    pyContains "requests>=1.0" "==" = false ∧
    flexLine "requests>=1.0" = "requests>=1.0" :=
  ⟨by decide, by decide,
   flexibilization_postcondition.1 "numpy==1.2.3" "numpy" "1.2.3" "1" "2" ["3"]
     (by decide) (by decide) (by decide) (by decide) (by decide) (by decide),
   by decide,
   flexibilization_postcondition.2.1 "pkg==7" "pkg" "7"
     (by decide) (by decide) (by decide) (by decide),
   by decide,
   flexibilization_postcondition.2.2 "requests>=1.0" (by decide) (by decide)⟩

/-! ## Claim C6 -/

/-- C6: for every candidate manifest text and every outcome of the external
resolver invocation, the oracle adapter returns normally (never propagates
an exception), removes the transient temp file on every exit path, and maps
both the 60-second timeout firing and any other raised exception to a
result with success = false. -/
theorem oracle_adapter_robustness :
    (∀ (call : String → Nat → SubprocessOutcome) (content : String),
      returnedNormally (run_pip_install_test call content).outcome = true) ∧
    (∀ (call : String → Nat → SubprocessOutcome) (content : String),
      (run_pip_install_test call content).tempFileRemoved = true) ∧
    (∀ (call : String → Nat → SubprocessOutcome) (content msg : String),
      call content pipInstallTimeout = SubprocessOutcome.timedOut msg →
      (run_pip_install_test call content).outcome = Except.ok (false, msg, "")) ∧
    (∀ (call : String → Nat → SubprocessOutcome) (content msg : String),
      call content pipInstallTimeout = SubprocessOutcome.raised msg →
      (run_pip_install_test call content).outcome = Except.ok (false, msg, "")) ∧
    pipInstallTimeout = 60 := by
  refine ⟨?_, ?_, ?_, ?_, rfl⟩
  · intro call content
    unfold run_pip_install_test
    cases call content pipInstallTimeout <;> rfl
  · intro call content
    unfold run_pip_install_test
    cases call content pipInstallTimeout <;> rfl
  · intro call content msg h
    unfold run_pip_install_test
    rw [h]
  · intro call content msg h
    unfold run_pip_install_test
    rw [h]

/-- C6 witness: the adapter applied to an invocation that times out and to
one that raises. -/
theorem oracle_adapter_robustness_witness :
    ((fun (_ : String) (_ : Nat) => SubprocessOutcome.timedOut "timed out")
        "flask==1.0.0" pipInstallTimeout = SubprocessOutcome.timedOut "timed out") ∧
    (run_pip_install_test
        (fun _ _ => SubprocessOutcome.timedOut "timed out") "flask==1.0.0").outcome =
      Except.ok (false, "timed out", "") ∧
    (run_pip_install_test
        (fun _ _ => SubprocessOutcome.raised "pip missing") "flask==1.0.0").tempFileRemoved
      = true :=
  ⟨rfl,
   oracle_adapter_robustness.2.2.1
     (fun _ _ => SubprocessOutcome.timedOut "timed out") "flask==1.0.0" "timed out" rfl,
   oracle_adapter_robustness.2.1
     (fun _ _ => SubprocessOutcome.raised "pip missing") "flask==1.0.0"⟩

/-- Zeta-reduced equation for the top-level fix flow. -/
theorem upgrade_smart_eq (oracle : String → Bool × String × String)
    (content : String) :
    upgrade_requirements_smart_v2 oracle content =
      (if (oracle content).1 then (⟨true, none, false⟩ : SmartRunResult)
       else
         match (progressive_fix_requirements oracle content).1 with
         | some fixed_content =>
           if fixed_content == "" then ⟨false, none, true⟩
           else ⟨false, some fixed_content, false⟩
         | none => ⟨false, none, true⟩) := rfl

/-! ## Claim C7 -/

/-- C7: when every oracle call fails, the top-level fix flow reports failure
and writes no output file; and whenever an output file is written, its
content is a candidate on which the oracle reported success. -/
theorem total_failure_atomicity :
    (∀ (oracle : String → Bool × String × String) (content : String),
      (∀ s, (oracle s).1 = false) →
      upgrade_requirements_smart_v2 oracle content =
        ⟨false, none, true⟩) ∧
    (∀ (oracle : String → Bool × String × String) (content written : String),
      (upgrade_requirements_smart_v2 oracle content).wroteOutput = some written →
      (oracle written).1 = true) := by
  constructor
  · intro oracle content h
    have hres : progressive_fix_requirements oracle content =
        (none, "All strategies failed") := ladderLoop_all_fail oracle h _
    rw [upgrade_smart_eq, h content]
    simp [hres]
  · intro oracle content written hw
    rw [upgrade_smart_eq] at hw
    cases hfirst : (oracle content).1 with
    | true =>
      rw [hfirst] at hw
      simp at hw
    | false =>
      rw [hfirst, if_neg Bool.false_ne_true] at hw
      cases hres : (progressive_fix_requirements oracle content).1 with
      | none =>
        rw [hres] at hw
        simp at hw
      | some fixed_content =>
        rw [hres] at hw
        dsimp only at hw
        by_cases hfc : (fixed_content == "") = true
        · rw [if_pos hfc] at hw
          simp at hw
        · rw [if_neg hfc] at hw
          have hwc : fixed_content = written := by
            injection hw
          rw [← hwc]
          exact ladderLoop_success_oracle oracle (strategies content)
            fixed_content hres

/-- C7 witness: the failure branch on an always-failing oracle, and the
write-implies-success branch on an oracle that accepts the flexibilized
candidate. -/
theorem total_failure_atomicity_witness :
    (∀ s, (alwaysNoOracle s).1 = false) ∧
    upgrade_requirements_smart_v2 alwaysNoOracle "flask==1.0.0" =
      ⟨false, none, true⟩ ∧
    (upgrade_requirements_smart_v2 flexOnlyOracle "flask==1.0.0").wroteOutput =
      some "flask>=1.0.0" ∧
    (flexOnlyOracle "flask>=1.0.0").1 = true :=
  ⟨fun _ => rfl,
   total_failure_atomicity.1 alwaysNoOracle "flask==1.0.0" (fun _ => rfl),
   by decide,
   total_failure_atomicity.2 flexOnlyOracle "flask==1.0.0" "flask>=1.0.0" (by decide)⟩

/-! ## Claim C8 -/

/-- C8: the upgrade loop processes each line independently, in order; if the
version lookup yields a latest version the pinned line becomes
name==latest; if the lookup raises, parses no "Available versions:" line
(yielding none), or yields an empty first entry, the original line passes
through unchanged; and the Scenario C lookup output rewrites
requests==2.0.0 to requests==2.31.0. -/
theorem version_upgrade_per_line :
    (∀ (lookup : String → LookupOutcome) (lines : List String),
      upgradeLoop lookup lines = lines.map (upgradeLine lookup)) ∧
    (∀ (lookup : String → LookupOutcome) (line package : String),
      pyStrip line = line → matchPackage line = some package →
      get_latest_version (lookup package) = none →
      upgradeLine lookup line = line) ∧
    (∀ (lookup : String → LookupOutcome) (line package : String),
      pyStrip line = line → matchPackage line = some package →
      get_latest_version (lookup package) = some "" →
      upgradeLine lookup line = line) ∧
    (∀ (lookup : String → LookupOutcome) (line package latest : String),
      pyStrip line = line → matchPackage line = some package →
      get_latest_version (lookup package) = some latest → (latest == "") = false →
      upgradeLine lookup line = package ++ "==" ++ latest) ∧
    (∀ lookup : String → LookupOutcome,
      lookup "requests" = LookupOutcome.completed "Available versions: 2.31.0, 2.30.0" →
      upgradeLine lookup "requests==2.0.0" = "requests==2.31.0") := by
  refine ⟨upgradeLoop_eq_map, upgradeLine_lookup_none, upgradeLine_lookup_empty,
    upgradeLine_lookup_some, ?_⟩
  intro lookup h
  have hv : get_latest_version (lookup "requests") = some "2.31.0" := by
    rw [h]
    decide
  have hu := upgradeLine_lookup_some lookup "requests==2.0.0" "requests" "2.31.0"
    (by decide) (by decide) hv (by decide)
  rw [hu]
  decide

/-- C8 witness: the per-line contract at the Scenario C lookup. -/
theorem version_upgrade_per_line_witness :
    ((fun _ : String => LookupOutcome.completed "Available versions: 2.31.0, 2.30.0")
        "requests" = LookupOutcome.completed "Available versions: 2.31.0, 2.30.0") ∧
    upgradeLine
        (fun _ => LookupOutcome.completed "Available versions: 2.31.0, 2.30.0")
        "requests==2.0.0" = "requests==2.31.0" :=
  ⟨rfl,
   version_upgrade_per_line.2.2.2.2
     (fun _ => LookupOutcome.completed "Available versions: 2.31.0, 2.30.0") rfl⟩

/-! ## Claim C9 -/

/-- C9: for every manifest whose parsed lines each either equal a rule's
replacement text already or match no rule (neither exactly nor by the
pattern test), applying the conflict-fix pass twice yields the same result
as applying it once.  The proof goes through the unconditional idempotence
of the pass. -/
theorem conflict_fix_idempotent (m : String)
    (_h : ∀ l ∈ parseManifest m, l ∈ ruleOutputs ∨
      ((exactLookup l conflict_fixes).isSome ||
        (patternLoop l conflict_fixes).isSome) = false) :
    fix_dependency_conflicts (fix_dependency_conflicts m) =
      fix_dependency_conflicts m :=
  fix_dependency_conflicts_idem m

/-- C9 witness: the idempotence on a manifest whose first line is a rule
output and whose second line matches no rule. -/
theorem conflict_fix_idempotent_witness :
    (∀ l ∈ parseManifest "numpy>=2.0.0,<2.3.0\nrequests==2.0.0",
      l ∈ ruleOutputs ∨
        ((exactLookup l conflict_fixes).isSome ||
          (patternLoop l conflict_fixes).isSome) = false) ∧
    fix_dependency_conflicts
        (fix_dependency_conflicts "numpy>=2.0.0,<2.3.0\nrequests==2.0.0") =
      fix_dependency_conflicts "numpy>=2.0.0,<2.3.0\nrequests==2.0.0" :=
  ⟨by decide,
   conflict_fix_idempotent "numpy>=2.0.0,<2.3.0\nrequests==2.0.0" (by decide)⟩

/-! ## Claim C10 -/

/-- C10: both rewriters map each line of the stripped input to exactly one
output line at the same position: splitting the rewriter output on newlines
yields exactly the per-line images of the stripped input's lines, in order,
and in particular the line counts agree. -/
theorem rewriter_line_preservation (t : String) :
    pySplitChar (fix_dependency_conflicts t) '\n' =
      (pySplitChar (pyStrip t) '\n').map fixLine ∧
    pySplitChar (make_requirements_flexible t) '\n' =
      (pySplitChar (pyStrip t) '\n').map flexLine ∧
    (pySplitChar (fix_dependency_conflicts t) '\n').length =
      (pySplitChar (pyStrip t) '\n').length ∧
    (pySplitChar (make_requirements_flexible t) '\n').length =
      (pySplitChar (pyStrip t) '\n').length := by
  refine ⟨fix_lines t, flex_lines t, ?_, ?_⟩
  · rw [fix_lines t, List.length_map]
  · rw [flex_lines t, List.length_map]

end AutoUp
